import Mathlib

/-!
Verification of the easygrant backend text utilities.

Texts are modelled as `List Char` (Python `str`).  Python string
operations (`split`, `strip`, `in`) are embedded below with their CPython
semantics.  The tiktoken encoder is external to the repository, so it is
modelled as an abstract encode/decode pair; the one-character-per-token
instance `charEnc` is used for concrete evaluations.
-/

/-- Python whitespace characters recognised by str.strip() (ASCII range). -/
def isPySpace (c : Char) : Bool :=
  c = ' ' || c = '\t' || c = '\n' || c = '\r' || c = '\x0b' || c = '\x0c'

/-- Python str.strip(): drop whitespace from both ends. -/
def pyStrip (l : List Char) : List Char :=
  ((l.dropWhile isPySpace).reverse.dropWhile isPySpace).reverse

/-- Recursion core of Python str.split for a nonempty separator.  The
Nat argument is an upper bound on the length of the remaining text
(invariant kept by every call, since each step consumes at least one
character); it only makes the recursion structural, so the
0-with-remaining-text case is never reached from pySplitNE. -/
def splitGo (s0 : Char) (srest : List Char) : Nat → List Char → List (List Char)
  | _, [] => [[]]
  | 0, _ :: _ => [[]]
  | fuel + 1, c :: rest =>
    if (s0 :: srest).isPrefixOf (c :: rest) then
      [] :: splitGo s0 srest fuel (rest.drop srest.length)
    else
      match splitGo s0 srest fuel rest with
      | [] => [[c]]
      | h :: t => (c :: h) :: t

/-- Python text.split(sep) for a NONEMPTY separator s0 :: srest:
leftmost, non-overlapping occurrences; keeps empty pieces. -/
def pySplitNE (s0 : Char) (srest : List Char) (text : List Char) : List (List Char) :=
  splitGo s0 srest text.length text

/-- Python `sep in text` (substring containment; the empty string is a
substring of everything). -/
def pyContains (sep : List Char) : List Char → Bool
  | [] => sep.isEmpty
  | c :: rest => sep.isPrefixOf (c :: rest) || pyContains sep rest

/-! ## src/backend/src/utils/paragraph_lock.py -/

/-- The paragraph separator, a blank line. -/
def nlnl : List Char := ['\n', '\n']

/-- split_into_paragraphs: split on a double newline, strip each piece,
drop the pieces that strip to nothing. -/
def split_into_paragraphs (text : List Char) : List (List Char) :=
  if text = [] then []
  else ((pySplitNE '\n' ['\n'] text).map pyStrip).filter (fun p => decide (p ≠ []))

/-- Lookup of a locked paragraph by index.  The source builds
`{idx: text for idx, text in locked_paragraphs}`: on duplicate indices the
LAST entry wins, which is the first hit in the reversed list. -/
def lockLookup (locks : List (Int × List Char)) (i : Int) : Option (List Char) :=
  (locks.reverse.find? (fun p => p.1 == i)).map (fun p => p.2)

/-- The merge loop shared by the source function and the spec algorithm:
for i in range(n): emit the locked text at i if any, else the i-th new
paragraph if it exists, else nothing; join with a blank line. -/
def mergeLoop (newParas : List (List Char)) (locks : List (Int × List Char))
    (n : Int) : List Char :=
  List.intercalate nlnl
    (((List.range n.toNat).map (fun k => (k : Int))).filterMap (fun i =>
      match lockLookup locks i with
      | some t => some t
      | none =>
        if i < (newParas.length : Int) then some (newParas.getD i.toNat []) else none))

/-- merge_paragraphs_with_locks from the source: empty lock list returns
new_text unchanged; otherwise loop up to
max(len(new_paragraphs) - 1, max(locked indices, default=-1)) + 1. -/
def merge_paragraphs_with_locks (newText : List Char)
    (locks : List (Int × List Char)) : List Char :=
  if locks = [] then newText
  else
    let newParas := split_into_paragraphs newText
    let maxIdx : Int := locks.foldl (fun a p => max a p.1) ((newParas.length : Int) - 1)
    mergeLoop newParas locks (maxIdx + 1)

/-- Modelled from the spec (the comparison definition for C7): split
new_text into paragraphs, let N = max(len(new_paragraphs), 1 + max locked
index) (N = len(new_paragraphs) when there are no locks), and run the
emit loop for i in 0..N. -/
def specMergeWithLocks (newText : List Char)
    (locks : List (Int × List Char)) : List Char :=
  let newParas := split_into_paragraphs newText
  let n : Int :=
    if locks = [] then (newParas.length : Int)
    else max (newParas.length : Int) (1 + locks.foldl (fun a p => max a p.1) (-1))
  mergeLoop newParas locks n

/-! ### Lemmas for C7 / C10 -/

theorem foldl_max_fst_max (l : List (Int × List Char)) :
    ∀ a b : Int, l.foldl (fun x p => max x p.1) (max a b)
      = max a (l.foldl (fun x p => max x p.1) b) := by
  induction l with
  | nil => intro a b; rfl
  | cons p t ih =>
      intro a b
      simp only [List.foldl_cons, max_assoc]
      exact ih a (max b p.1)

theorem merge_locks_count_eq (newParas : List (List Char))
    (locks : List (Int × List Char)) :
    locks.foldl (fun a p => max a p.1) ((newParas.length : Int) - 1) + 1
      = max (newParas.length : Int) (1 + locks.foldl (fun a p => max a p.1) (-1)) := by
  have h1 : ((newParas.length : Int) - 1) = max ((newParas.length : Int) - 1) (-1) := by
    rw [max_eq_left]; omega
  rw [h1, foldl_max_fst_max, ← max_add_add_right]
  have h2 : ((newParas.length : Int) - 1) + 1 = (newParas.length : Int) := by omega
  rw [h2, add_comm]

/-- C7: when the lock list is nonempty, merge_paragraphs_with_locks
produces exactly the paragraphs of the spec algorithm (locked text at a
locked position, else the i-th new paragraph if it exists, else nothing,
joined by a blank line, with N = max(len(new_paragraphs), 1 + max locked
index)); in particular merging the new paragraphs Q0, Q1, Q2 with the
single lock (1, Locked-P1) yields Q0, Locked-P1, Q2 joined by blank
lines.  (With an empty lock list the source returns new_text unchanged,
which can differ from the spec algorithm; see the counterexample.) -/
theorem c7_merge_with_locks_follows_spec_algorithm :
    (∀ (newText : List Char) (locks : List (Int × List Char)), locks ≠ [] →
      merge_paragraphs_with_locks newText locks = specMergeWithLocks newText locks)
    ∧ merge_paragraphs_with_locks "Q0\n\nQ1\n\nQ2".toList [(1, "Locked-P1".toList)]
        = "Q0\n\nLocked-P1\n\nQ2".toList := by
  constructor
  · intro newText locks h
    simp only [merge_paragraphs_with_locks, specMergeWithLocks, if_neg h]
    rw [merge_locks_count_eq]
  · decide

/-- Witness for C7: the nonempty-locks branch applied to a concrete input. -/
theorem c7_witness :
    merge_paragraphs_with_locks "X".toList [((0 : Int), "L".toList)]
      = specMergeWithLocks "X".toList [((0 : Int), "L".toList)] :=
  c7_merge_with_locks_follows_spec_algorithm.1 _ _ (by decide)

/-- Counterexample for C7 as stated: with the empty lock list the source
returns new_text byte-for-byte (here with its leading space), while the
spec algorithm re-splits and re-joins the paragraphs, stripping it. -/
theorem c7_counterexample :
    merge_paragraphs_with_locks " A".toList [] = " A".toList
      ∧ specMergeWithLocks " A".toList [] = "A".toList
      ∧ " A".toList ≠ "A".toList :=
  ⟨rfl, by decide, by decide⟩

/-- C10: merging any new text with an empty lock list returns the new
text unchanged: the source returns early before any paragraph
re-splitting or re-joining. -/
theorem c10_merge_empty_locks_identity :
    ∀ newText : List Char, merge_paragraphs_with_locks newText [] = newText :=
  fun _ => rfl

/-! ## src/backend/src/models/citation.py -/

/-- Citation pydantic model.  Python model equality compares every
field; relevance_score is a Python float, modelled as a rational. -/
structure Citation where
  document_id : String
  document_title : String
  page_number : Int
  chunk_text : String
  chunk_id : Option String
  relevance_score : Option ℚ
deriving DecidableEq, Repr

/-- Python str.lower() (ASCII case folding, which covers the titles
compared here). -/
def lowerStr (s : String) : String := String.mk (s.data.map Char.toLower)

/-! ## SectionGeneratorAgent._extract_citations_from_text -/

/-- Numeric value of the digit group (Python int(page_str)). -/
def digitsToNat (l : List Char) : Nat :=
  l.foldl (fun a c => 10 * a + (c.toNat - '0'.toNat)) 0

/-- Parse the content between an open bracket and the first close
bracket against the tail of the citation regex: TITLE, \s* p. \s*
DIGITS.  The greedy backtracking title group makes the decomposition
deterministic from the right end. -/
def parseMarkerInner (content : List Char) : Option (String × Nat) :=
  let r := content.reverse
  let digits := r.takeWhile Char.isDigit
  if digits.isEmpty then none
  else
    match (r.dropWhile Char.isDigit).dropWhile isPySpace with
    | '.' :: 'p' :: r2 =>
      match r2.dropWhile isPySpace with
      | ',' :: r3 =>
        if r3.isEmpty then none
        else some (String.mk r3.reverse, digitsToNat digits.reverse)
      | _ => none
    | _ => none

/-- Scan core for re.findall of the citation marker pattern.  The Nat
argument is an upper bound on the remaining length (each step consumes
at least one character), only making the recursion structural. -/
def findMarkersGo : Nat → List Char → List (String × Nat)
  | _, [] => []
  | 0, _ :: _ => []
  | fuel + 1, c :: rest =>
    if c = '[' then
      match rest.dropWhile (fun d => decide (d ≠ ']')) with
      | [] => findMarkersGo fuel rest
      | _ :: rest2 =>
        match parseMarkerInner (rest.takeWhile (fun d => decide (d ≠ ']'))) with
        | some m => m :: findMarkersGo fuel rest2
        | none => findMarkersGo fuel rest
    else findMarkersGo fuel rest

/-- re.findall of the marker pattern over the generated text: scan left
to right; at an open bracket the match, if any, closes at the first
close bracket; on failure the scan advances one character. -/
def findMarkers (text : List Char) : List (String × Nat) :=
  findMarkersGo text.length text

/-- citation.document_title.lower() == doc_title.lower() -/
def titleMatches (c : Citation) (t : String) : Bool :=
  lowerStr c.document_title == lowerStr t

/-- citation.page_number == page_num -/
def pageMatches (c : Citation) (p : Nat) : Bool :=
  c.page_number == (p : Int)

/-- The scan over available citations for one marker: the first exact
(title and page) hit returns immediately; otherwise the first title-only
hit is remembered as the fallback and returned at the end. -/
def scanAvailable (t : String) (p : Nat) :
    List Citation → Option Citation → Option Citation
  | [], fb => fb
  | c :: rest, fb =>
    if titleMatches c t && pageMatches c p then some c
    else if titleMatches c t && fb.isNone then scanAvailable t p rest (some c)
    else scanAvailable t p rest fb

/-- Resolution of one marker (exact_match or fallback_match). -/
def resolveMarker (available : List Citation) (t : String) (p : Nat) : Option Citation :=
  scanAvailable t p available none

/-- The marker loop of _extract_citations_from_text: append the
resolved citation unless an equal citation is already collected. -/
def extractLoop (available : List Citation) :
    List (String × Nat) → List Citation → List Citation
  | [], used => used
  | (t, p) :: ms, used =>
    match resolveMarker available t p with
    | none => extractLoop available ms used
    | some c => extractLoop available ms (if c ∈ used then used else used ++ [c])

/-- _extract_citations_from_text: find the markers in the generated
text and resolve them against the available citations. -/
def extract_citations_from_text (text : List Char) (available : List Citation) :
    List Citation :=
  extractLoop available (findMarkers text) []

theorem find_cross {α : Type} (p q : α → Bool) :
    ∀ (l : List α) (a b : α), l.find? p = some a → l.find? q = some b →
      p b = true → q a = true → a = b := by
  intro l
  induction l with
  | nil => intro a b ha _ _ _; simp at ha
  | cons x tl ih =>
      intro a b ha hb hpb hqa
      by_cases hp : p x = true
      · have hax : x = a := Option.some.inj (by rw [List.find?_cons_of_pos _ hp] at ha; exact ha)
        by_cases hq : q x = true
        · have hbx : x = b := Option.some.inj (by rw [List.find?_cons_of_pos _ hq] at hb; exact hb)
          rw [← hax, ← hbx]
        · rw [← hax] at hqa
          exact absurd hqa hq
      · rw [List.find?_cons_of_neg _ hp] at ha
        by_cases hq : q x = true
        · have hbx : x = b := Option.some.inj (by rw [List.find?_cons_of_pos _ hq] at hb; exact hb)
          rw [← hbx] at hpb
          exact absurd hpb hp
        · rw [List.find?_cons_of_neg _ hq] at hb
          exact ih a b ha hb hpb hqa

theorem scanAvailable_eq (t : String) (p : Nat) :
    ∀ (l : List Citation) (fb : Option Citation),
      scanAvailable t p l fb
        = ((l.find? (fun c => titleMatches c t && pageMatches c p)).or
            (fb.or (l.find? (fun c => titleMatches c t)))) := by
  intro l
  induction l with
  | nil => intro fb; cases fb <;> rfl
  | cons c rest ih =>
      intro fb
      by_cases hti : titleMatches c t = true
      · by_cases hpg : pageMatches c p = true
        · simp [scanAvailable, List.find?_cons, hti, hpg, Option.or]
        · rw [Bool.not_eq_true] at hpg
          cases fb with
          | none => simp [scanAvailable, List.find?_cons, hti, hpg, ih, Option.or]
          | some f => simp [scanAvailable, List.find?_cons, hti, hpg, ih, Option.or]
      · rw [Bool.not_eq_true] at hti
        simp [scanAvailable, List.find?_cons, hti, ih, Option.or]

theorem resolveMarker_eq (available : List Citation) (t : String) (p : Nat) :
    resolveMarker available t p
      = ((available.find? (fun c => titleMatches c t && pageMatches c p)).or
          (available.find? (fun c => titleMatches c t))) := by
  rw [resolveMarker, scanAvailable_eq]
  rfl

theorem option_some_or {α : Type} (a : α) (o : Option α) : (some a).or o = some a := rfl

theorem option_none_or {α : Type} (o : Option α) : (none : Option α).or o = o := rfl

theorem titleMatches_iff {c : Citation} {t : String} :
    titleMatches c t = true ↔ lowerStr c.document_title = lowerStr t := by
  simp [titleMatches]

theorem pageMatches_iff {c : Citation} {p : Nat} :
    pageMatches c p = true ↔ c.page_number = (p : Int) := by
  simp [pageMatches]

theorem resolve_unique_key {available : List Citation} {t1 t2 : String} {p1 p2 : Nat}
    {c1 c2 : Citation}
    (h1 : resolveMarker available t1 p1 = some c1)
    (h2 : resolveMarker available t2 p2 = some c2)
    (hT : c1.document_title = c2.document_title)
    (hP : c1.page_number = c2.page_number) : c1 = c2 := by
  rw [resolveMarker_eq] at h1 h2
  cases hx1 : available.find? (fun c => titleMatches c t1 && pageMatches c p1) with
  | some d1 =>
      rw [hx1, option_some_or] at h1
      have he1 : available.find? (fun c => titleMatches c t1 && pageMatches c p1)
          = some c1 := hx1.trans h1
      have hprops1 := List.find?_some he1
      rw [Bool.and_eq_true] at hprops1
      obtain ⟨ht1, hp1⟩ := hprops1
      have hl1 : lowerStr c1.document_title = lowerStr t1 := titleMatches_iff.mp ht1
      have hp1i : c1.page_number = (p1 : Int) := pageMatches_iff.mp hp1
      cases hx2 : available.find? (fun c => titleMatches c t2 && pageMatches c p2) with
      | some d2 =>
          rw [hx2, option_some_or] at h2
          have he2 : available.find? (fun c => titleMatches c t2 && pageMatches c p2)
              = some c2 := hx2.trans h2
          have hprops2 := List.find?_some he2
          rw [Bool.and_eq_true] at hprops2
          obtain ⟨ht2, hp2⟩ := hprops2
          have hl2 : lowerStr c2.document_title = lowerStr t2 := titleMatches_iff.mp ht2
          have hp2i : c2.page_number = (p2 : Int) := pageMatches_iff.mp hp2
          have hTT : lowerStr t1 = lowerStr t2 := by
            rw [← hl1, hT, hl2]
          have hPP : ((p1 : Nat) : Int) = ((p2 : Nat) : Int) := by
            rw [← hp1i, hP, hp2i]
          have hpredeq : (fun c : Citation => titleMatches c t1 && pageMatches c p1)
              = (fun c : Citation => titleMatches c t2 && pageMatches c p2) := by
            funext c
            simp [titleMatches, pageMatches, hTT, hPP]
          rw [hpredeq] at he1
          exact Option.some.inj (he1.symm.trans he2)
      | none =>
          rw [hx2, option_none_or] at h2
          have hq2 := List.find?_some h2
          have hl2t : lowerStr c2.document_title = lowerStr t2 := titleMatches_iff.mp hq2
          refine find_cross _ _ available c1 c2 he1 h2 ?_ ?_
          · rw [Bool.and_eq_true]
            refine ⟨titleMatches_iff.mpr ?_, pageMatches_iff.mpr ?_⟩
            · rw [← congrArg lowerStr hT]
              exact hl1
            · rw [← hP]
              exact hp1i
          · exact titleMatches_iff.mpr (by rw [congrArg lowerStr hT]; exact hl2t)
  | none =>
      rw [hx1, option_none_or] at h1
      have hq1 := List.find?_some h1
      have hl1t : lowerStr c1.document_title = lowerStr t1 := titleMatches_iff.mp hq1
      cases hx2 : available.find? (fun c => titleMatches c t2 && pageMatches c p2) with
      | some d2 =>
          rw [hx2, option_some_or] at h2
          have he2 : available.find? (fun c => titleMatches c t2 && pageMatches c p2)
              = some c2 := hx2.trans h2
          have hprops2 := List.find?_some he2
          rw [Bool.and_eq_true] at hprops2
          obtain ⟨ht2, hp2⟩ := hprops2
          have hl2 : lowerStr c2.document_title = lowerStr t2 := titleMatches_iff.mp ht2
          have hp2i : c2.page_number = (p2 : Int) := pageMatches_iff.mp hp2
          refine (find_cross _ _ available c2 c1 he2 h1 ?_ ?_).symm
          · rw [Bool.and_eq_true]
            refine ⟨titleMatches_iff.mpr ?_, pageMatches_iff.mpr ?_⟩
            · rw [congrArg lowerStr hT]
              exact hl2
            · rw [hP]
              exact hp2i
          · exact titleMatches_iff.mpr (by rw [← congrArg lowerStr hT]; exact hl1t)
      | none =>
          rw [hx2, option_none_or] at h2
          have hq2 := List.find?_some h2
          have hl2t : lowerStr c2.document_title = lowerStr t2 := titleMatches_iff.mp hq2
          have hTT : lowerStr t1 = lowerStr t2 := by
            rw [← hl1t, hT, hl2t]
          have hpredeq : (fun c : Citation => titleMatches c t1)
              = (fun c : Citation => titleMatches c t2) := by
            funext c
            simp [titleMatches, hTT]
          rw [hpredeq] at h1
          exact Option.some.inj (h1.symm.trans h2)

theorem extractLoop_invariant (available : List Citation) :
    ∀ (ms : List (String × Nat)) (used : List Citation),
      (∀ c ∈ used, ∃ t p, resolveMarker available t p = some c) →
      used.Pairwise (fun a b => ¬(a.document_title = b.document_title
        ∧ a.page_number = b.page_number)) →
      (extractLoop available ms used).Pairwise (fun a b =>
          ¬(a.document_title = b.document_title ∧ a.page_number = b.page_number))
        ∧ ∀ c ∈ extractLoop available ms used,
            ∃ t p, resolveMarker available t p = some c := by
  intro ms
  induction ms with
  | nil => intro used hres hpw; exact ⟨hpw, hres⟩
  | cons m ms ih =>
      intro used hres hpw
      obtain ⟨t, p⟩ := m
      simp only [extractLoop]
      cases hr : resolveMarker available t p with
      | none => exact ih used hres hpw
      | some c =>
          dsimp only
          by_cases hc : c ∈ used
          · rw [if_pos hc]
            exact ih used hres hpw
          · rw [if_neg hc]
            apply ih
            · intro d hd
              rcases List.mem_append.mp hd with hd | hd
              · exact hres d hd
              · rw [List.mem_singleton] at hd
                exact ⟨t, p, hd ▸ hr⟩
            · rw [List.pairwise_append]
              refine ⟨hpw, List.pairwise_singleton _ _, ?_⟩
              intro a ha b hb
              rw [List.mem_singleton] at hb
              rintro ⟨hT, hP⟩
              obtain ⟨ta, pa, hra⟩ := hres a ha
              have hac : a = c := resolve_unique_key hra hr (hb ▸ hT) (hb ▸ hP)
              exact hc (hac ▸ ha)

/-- Available citations used in the concrete C6 scenario: same document
title A on two different pages, with other fields differing. -/
def citA1 : Citation :=
  { document_id := "doc-1", document_title := "A", page_number := 1,
    chunk_text := "first chunk", chunk_id := none, relevance_score := none }

def citA2 : Citation :=
  { document_id := "doc-2", document_title := "A", page_number := 2,
    chunk_text := "second chunk", chunk_id := some "c2", relevance_score := none }

/-- C5: for every generated text and every available citation list, the
extracted citation list contains at most one Citation per
(document_title, page_number) pair: any marker resolving to a citation
whose title and page already occur in the result resolves to that very
citation (resolution always returns the first matching available
citation), so the membership test filters it out and nothing is added. -/
theorem c5_citations_unique_by_title_and_page :
    ∀ (text : List Char) (available : List Citation),
      (extract_citations_from_text text available).Pairwise
        (fun a b => ¬(a.document_title = b.document_title
          ∧ a.page_number = b.page_number)) := by
  intro text available
  exact (extractLoop_invariant available (findMarkers text) []
    (by intro c hc; exact absurd hc (List.not_mem_nil c)) List.Pairwise.nil).1

/-- C6: an exact match (first available citation with case-insensitively
equal title AND equal page) takes precedence over the title-only
fallback: with available = [(A, p.1), (A, p.2)] and the generated text
containing only the marker [A, p.2], extraction returns exactly the
page-2 citation; and when no exact match exists, resolution returns the
first citation whose title matches case-insensitively, whatever its
page. -/
theorem c6_exact_match_over_fallback :
    extract_citations_from_text "[A, p.2]".toList [citA1, citA2] = [citA2]
      ∧ ∀ (available : List Citation) (t : String) (p : Nat),
          (∀ c ∈ available, ¬(titleMatches c t && pageMatches c p) = true) →
          resolveMarker available t p
            = available.find? (fun c => titleMatches c t) := by
  constructor
  · decide
  · intro available t p h
    rw [resolveMarker_eq, List.find?_eq_none.mpr h, option_none_or]

/-- Witness for C6: the no-exact-match branch applied to a concrete
input (the marker cites page 7, which no available citation has). -/
theorem c6_witness :
    resolveMarker [citA1] "a" 7 = [citA1].find? (fun c => titleMatches c "a") :=
  c6_exact_match_over_fallback.2 [citA1] "a" 7 (by decide)

/-! ## src/backend/src/api/routes/sections.py (update_section) -/

/-- The pure core of update_section: split the request text into
paragraphs, keep only the requested lock indices i with
0 <= i < len(paragraphs), and freeze each kept index with that
paragraph's text.  The route stores the kept indices and returns them in
the response (locked_paragraphs field), so the caller can compare them
with the requested list; nothing raises on out-of-range indices. -/
def update_section_locks (text : List Char) (requested : List Int) :
    List Int × List (Int × List Char) :=
  let paragraphs := split_into_paragraphs text
  let valid := requested.filter
    (fun idx => decide (0 ≤ idx ∧ idx < (paragraphs.length : Int)))
  (valid, valid.map (fun idx => (idx, paragraphs.getD idx.toNat [])))

/-- C8: the applied lock set is exactly the requested indices that are
in range for the current paragraph list, each frozen with that
paragraph's current text; out-of-range (including negative) indices are
dropped without failing the update, and the reported list is the valid
subset itself. -/
theorem c8_update_section_filters_invalid_lock_indices :
    ∀ (text : List Char) (requested : List Int) (i : Int),
      (i ∈ (update_section_locks text requested).1 ↔
        i ∈ requested ∧ 0 ≤ i ∧ i < ((split_into_paragraphs text).length : Int))
      ∧ ∀ pr ∈ (update_section_locks text requested).2,
          ∃ h : pr.1.toNat < (split_into_paragraphs text).length,
            pr.2 = (split_into_paragraphs text).get ⟨pr.1.toNat, h⟩ := by
  intro text requested i
  constructor
  · simp [update_section_locks, List.mem_filter, and_assoc]
  · intro pr hpr
    simp only [update_section_locks, List.mem_map, List.mem_filter,
      decide_eq_true_eq] at hpr
    obtain ⟨idx, ⟨_, hge, hlt⟩, hpr⟩ := hpr
    subst hpr
    have hn : idx.toNat < (split_into_paragraphs text).length := by omega
    exact ⟨hn, by
      simp [List.getD_eq_getElem?_getD, List.getElem?_eq_getElem hn,
        List.get_eq_getElem]⟩

/-- Witness for C8: index 0 is applied for a two-paragraph text when
requested together with out-of-range indices 5 and -1. -/
theorem c8_witness :
    (0 : Int) ∈ (update_section_locks "P0\n\nP1".toList [0, 5, -1, 1]).1 :=
  (c8_update_section_filters_invalid_lock_indices "P0\n\nP1".toList
    [0, 5, -1, 1] 0).1.mpr ⟨by decide, by decide, by decide⟩

/-! ## src/backend/src/utils/chunking.py -/

/-- Abstract tiktoken encoding: the tiktoken library is external to the
repository, so encode/decode is a parameter of the embedding. -/
structure Encoding (Tok : Type) where
  encode : List Char → List Tok
  decode : List Tok → List Char

/-- count_tokens: len(self.encoding.encode(text)). -/
def countTokens {Tok : Type} (enc : Encoding Tok) (text : List Char) : Nat :=
  (enc.encode text).length

/-- The one-token-per-character encoding used for concrete runs. -/
def charEnc : Encoding Char :=
  { encode := fun l => l, decode := fun l => l }

/-- The splitter state set up by RecursiveCharacterTextSplitter.__init__:
it stores chunk_size and chunk_overlap as given, with no validation.
(The sizes are used as nonnegative integers throughout.) -/
structure Splitter where
  chunk_size : Nat
  chunk_overlap : Nat
deriving DecidableEq, Repr

/-- RecursiveCharacterTextSplitter.__init__ (token sizing part): the
constructor body only assigns the fields and never raises. -/
def RecursiveCharacterTextSplitter_init (chunk_size chunk_overlap : Nat) : Splitter :=
  { chunk_size := chunk_size, chunk_overlap := chunk_overlap }

/-- create_text_splitter factory: passes the sizes through. -/
def create_text_splitter (chunk_size chunk_overlap : Nat) : Splitter :=
  RecursiveCharacterTextSplitter_init chunk_size chunk_overlap

/-- self.separators = ["\n\n", "\n", ". ", " ", ""] -/
def separators : List (List Char) := [['\n', '\n'], ['\n'], ['.', ' '], [' '], []]

/-- valueError models the Python ValueError("empty separator") raised by
text.split(""); outOfFuel is an artifact of the fuel-indexed embedding
of the recursion. -/
inductive SplitErr
  | valueError
  | outOfFuel
deriving DecidableEq, Repr

/-- Python text.split(separator): raises ValueError when the separator
is the empty string. -/
def pySplit (sep text : List Char) : Except SplitErr (List (List Char)) :=
  match sep with
  | [] => .error .valueError
  | s0 :: srest => .ok (pySplitNE s0 srest text)

/-- _get_overlap_text: decode of the last chunk_overlap tokens of the
joined previous chunk (empty when there is no chunk or no overlap). -/
def getOverlapText {Tok : Type} (enc : Encoding Tok) (cfg : Splitter)
    (chunks : List (List Char)) (sep : List Char) : List Char :=
  if chunks = [] ∨ cfg.chunk_overlap = 0 then []
  else
    let toks := enc.encode (List.intercalate sep chunks)
    enc.decode (toks.drop (toks.length - cfg.chunk_overlap))

/-- _split_by_tokens window loop: windows of up to chunk_size tokens,
the start advancing to end - chunk_overlap while tokens remain.  The
fuel only bounds the number of windows (the Python loop diverges when
chunk_overlap >= chunk_size, which surfaces here as none). -/
def splitByTokensGo {Tok : Type} (enc : Encoding Tok) (cfg : Splitter) :
    Nat → List Tok → Nat → Option (List (List Char))
  | 0, _, _ => none
  | fuel + 1, toks, start =>
    if start < toks.length then
      let e := min (start + cfg.chunk_size) toks.length
      let window := (toks.drop start).take (e - start)
      let start2 := if e < toks.length then e - cfg.chunk_overlap else e
      match splitByTokensGo enc cfg fuel toks start2 with
      | none => none
      | some rest => some (enc.decode window :: rest)
    else some []

/-- _split_by_tokens on a text: encode, cut windows from offset 0. -/
def split_by_tokens {Tok : Type} (enc : Encoding Tok) (cfg : Splitter)
    (fuel : Nat) (text : List Char) : Option (List (List Char)) :=
  splitByTokensGo enc cfg fuel (enc.encode text) 0

/-- The three mutually recursive pieces of the splitter: split_text, its
separator loop, and _merge_splits (whose accumulated chunks are returned
as the prefix of the result instead of through a mutable list). -/
inductive ChunkCall
  | splitText (text : List Char)
  | sepLoop (text : List Char) (seps : List (List Char))
  | mergeSplits (sep : List Char) (splits : List (List Char))
      (current : List (List Char)) (curTok : Nat)

/-- The recursion of split_text / _merge_splits, structural on a fuel
that strictly exceeds the recursion depth when called through
split_text.

  - splitText: empty text gives []; text within chunk_size gives
    [text]; otherwise the separator loop over self.separators.
  - sepLoop: a separator contained in the text is split on (ValueError
    for the always-contained empty separator) and merged; an empty merge
    result falls through to the next separator; after the loop comes the
    forced _split_by_tokens.
  - mergeSplits: empty splits are skipped; an oversized split flushes
    the current chunk and recurses into split_text; otherwise the split
    is appended to the current chunk when it fits, else the current
    chunk is flushed and a new one is seeded from the overlap text. -/
def chunkRun {Tok : Type} (enc : Encoding Tok) (cfg : Splitter) :
    Nat → ChunkCall → Except SplitErr (List (List Char))
  | 0, _ => .error .outOfFuel
  | fuel + 1, .splitText text =>
    if text = [] then .ok []
    else if countTokens enc text ≤ cfg.chunk_size then .ok [text]
    else chunkRun enc cfg fuel (.sepLoop text separators)
  | fuel + 1, .sepLoop text [] =>
    match split_by_tokens enc cfg (fuel + 1) text with
    | some chunks => .ok chunks
    | none => .error .outOfFuel
  | fuel + 1, .sepLoop text (sep :: more) =>
    if pyContains sep text then
      match pySplit sep text with
      | .error e => .error e
      | .ok splits =>
        match chunkRun enc cfg fuel (.mergeSplits sep splits [] 0) with
        | .error e => .error e
        | .ok chunks =>
          if chunks = [] then chunkRun enc cfg fuel (.sepLoop text more)
          else .ok chunks
    else chunkRun enc cfg fuel (.sepLoop text more)
  | _ + 1, .mergeSplits sep [] current _ =>
    .ok (if current = [] then [] else [List.intercalate sep current])
  | fuel + 1, .mergeSplits sep (s :: rest) current curTok =>
    if s = [] then chunkRun enc cfg fuel (.mergeSplits sep rest current curTok)
    else
      let st := countTokens enc s
      if cfg.chunk_size < st then
        let pre := if current = [] then [] else [List.intercalate sep current]
        match chunkRun enc cfg fuel (.splitText s) with
        | .error e => .error e
        | .ok sub =>
          match chunkRun enc cfg fuel (.mergeSplits sep rest [] 0) with
          | .error e => .error e
          | .ok more2 => .ok (pre ++ sub ++ more2)
      else
        let newTok := curTok + st
          + (if sep ≠ [] ∧ current ≠ [] then countTokens enc sep else 0)
        if newTok ≤ cfg.chunk_size then
          chunkRun enc cfg fuel (.mergeSplits sep rest (current ++ [s]) newTok)
        else
          let done := if current = [] then [] else [List.intercalate sep current]
          let ov := getOverlapText enc cfg current sep
          let current2 := if ov = [] then [s] else [ov, s]
          match chunkRun enc cfg fuel (.mergeSplits sep rest current2
              (countTokens enc (List.intercalate sep current2))) with
          | .error e => .error e
          | .ok more2 => .ok (done ++ more2)

/-- split_text: the supplied fuel strictly exceeds the recursion depth
(each nested split_text call is on a strictly shorter text, and the
loops in between are bounded by the number of separators and splits), so
outOfFuel is never the outcome of this wrapper. -/
def split_text {Tok : Type} (enc : Encoding Tok) (cfg : Splitter)
    (text : List Char) : Except SplitErr (List (List Char)) :=
  chunkRun enc cfg ((text.length + 8) * (text.length + 8)) (.splitText text)

/-- encode distributes over concatenation (token additivity; holds for
the per-character instance and is the best case for the chunker's token
accounting). -/
def EncAdditive {Tok : Type} (enc : Encoding Tok) : Prop :=
  ∀ a b, enc.encode (a ++ b) = enc.encode a ++ enc.encode b

/-- decoding a token slice and re-encoding it gives the slice back. -/
def EncRoundTrip {Tok : Type} (enc : Encoding Tok) : Prop :=
  ∀ l, enc.encode (enc.decode l) = l

/-! ### C1 / C2 / C3 / C9: split_text behaviour -/

theorem pyContains_nil (t : List Char) : pyContains [] t = true := by
  cases t with
  | nil => rfl
  | cons c r => simp [pyContains, List.isPrefixOf]

/-- A 25-token (one token per character) text containing none of the
natural separators. -/
def sepFreeText : List Char := "abcdefghijklmnopqrstuvwxy".toList

/-- C9: a text whose token count is within chunk_size is returned as the
single chunk [text] without recursing, except that the empty text
returns the empty chunk list. -/
theorem c9_small_text_single_chunk :
    ∀ {Tok : Type} (enc : Encoding Tok) (cfg : Splitter) (text : List Char),
      countTokens enc text ≤ cfg.chunk_size →
      split_text enc cfg text = .ok (if text = [] then [] else [text]) := by
  intro Tok enc cfg text h
  have hpos : 0 < (text.length + 8) * (text.length + 8) :=
    Nat.mul_pos (by omega) (by omega)
  have hs : (text.length + 8) * (text.length + 8)
      = ((text.length + 8) * (text.length + 8) - 1) + 1 := by omega
  rw [split_text, hs]
  by_cases he : text = []
  · subst he; simp [chunkRun]
  · rw [if_neg he]
    simp [chunkRun, he, h]

/-- Witness for C9: a two-character text under the default 600-token
budget comes back as a single chunk. -/
theorem c9_witness :
    split_text charEnc (Splitter.mk 600 90) "hi".toList
      = .ok (if "hi".toList = [] then [] else ["hi".toList]) :=
  c9_small_text_single_chunk charEnc (Splitter.mk 600 90) "hi".toList (by decide)

/-- C1 fails on the code: for every encoding and every configuration, a
nonempty text over the chunk budget that contains no paragraph break,
line break, period-space or space makes split_text raise ValueError:
the final separator in self.separators is the empty string, Python
reports "" in text as True for every text, and text.split("") raises
ValueError("empty separator"), so the hard-split fallback on the line
after the loop is unreachable even though the comments announce it. -/
theorem c1_unsplittable_text_raises_value_error :
    ∀ {Tok : Type} (enc : Encoding Tok) (cfg : Splitter) (text : List Char),
      text ≠ [] →
      cfg.chunk_size < countTokens enc text →
      pyContains ['\n', '\n'] text = false →
      pyContains ['\n'] text = false →
      pyContains ['.', ' '] text = false →
      pyContains [' '] text = false →
      split_text enc cfg text = .error .valueError := by
  intro Tok enc cfg text hne hgt hnn hn hps hsp
  have h64 : 8 * 8 ≤ (text.length + 8) * (text.length + 8) :=
    Nat.mul_le_mul (by omega) (by omega)
  have hs : (text.length + 8) * (text.length + 8)
      = ((text.length + 8) * (text.length + 8) - 6) + 6 := by omega
  rw [split_text, hs]
  have hle : ¬ countTokens enc text ≤ cfg.chunk_size := not_le.mpr hgt
  simp [chunkRun, separators, hne, hle, hnn, hn, hps, hsp, pyContains_nil, pySplit]

/-- Witness for C1: the concrete 25-token separator-free text with
chunk_size 10 and overlap 3 ends in the ValueError. -/
theorem c1_witness :
    split_text charEnc (Splitter.mk 10 3) sepFreeText = .error .valueError :=
  c1_unsplittable_text_raises_value_error charEnc (Splitter.mk 10 3) sepFreeText
    (by decide) (by decide) (by decide) (by decide) (by decide) (by decide)

/-- C2 fails on the code: on the 25-token separator-free input with
chunk_size 10, overlap 3, split_text raises ValueError instead of
returning the hard-split windows, because the dead empty-string
separator is hit first (see C1).  The second conjunct shows that the
intended fallback _split_by_tokens, were it reached, would produce
exactly the windows the claim describes: token offsets 0, 7, 14, 21
(step 10 - 3), each window take-10 from its offset (the last truncated
to 4 tokens), consecutive windows sharing exactly 3 tokens. -/
theorem c2_hard_split_windows_unreachable :
    split_text charEnc (Splitter.mk 10 3) sepFreeText = .error .valueError
      ∧ split_by_tokens charEnc (Splitter.mk 10 3) 26 sepFreeText
          = some ([0, 7, 14, 21].map (fun k => (sepFreeText.drop k).take 10)) :=
  ⟨rfl, rfl⟩

/-- C3 fails on the code: the constructor stores chunk_size 600 and
chunk_overlap 600 as they are — there is no validation in __init__ nor
in create_text_splitter, no error value exists, and the resulting
configuration is accepted by the splitting algorithm (here splitting a
small text). -/
theorem c3_constructor_accepts_overlap_ge_size :
    RecursiveCharacterTextSplitter_init 600 600
        = { chunk_size := 600, chunk_overlap := 600 }
      ∧ create_text_splitter 600 600 = RecursiveCharacterTextSplitter_init 600 600
      ∧ (RecursiveCharacterTextSplitter_init 600 600).chunk_size
          ≤ (RecursiveCharacterTextSplitter_init 600 600).chunk_overlap
      ∧ split_text charEnc (RecursiveCharacterTextSplitter_init 600 600) "ok".toList
          = .ok ["ok".toList] :=
  ⟨rfl, rfl, by decide, rfl⟩

theorem encode_nil {Tok : Type} {enc : Encoding Tok} (hadd : EncAdditive enc) :
    enc.encode [] = [] := by
  have h := hadd [] []
  simp only [List.nil_append] at h
  have hl := congrArg List.length h
  rw [List.length_append] at hl
  exact List.eq_nil_of_length_eq_zero (by omega)

theorem countTokens_nil {Tok : Type} {enc : Encoding Tok} (hadd : EncAdditive enc) :
    countTokens enc [] = 0 := by
  simp [countTokens, encode_nil hadd]

theorem countTokens_append {Tok : Type} {enc : Encoding Tok} (hadd : EncAdditive enc)
    (a b : List Char) :
    countTokens enc (a ++ b) = countTokens enc a + countTokens enc b := by
  simp [countTokens, hadd a b]

theorem intercalate_pair (sep a b : List Char) :
    List.intercalate sep [a, b] = a ++ sep ++ b := by
  simp [List.intercalate, List.intersperse]

theorem intercalate_cons_cons_eq (sep a b : List Char) (l : List (List Char)) :
    List.intercalate sep (a :: b :: l) = a ++ sep ++ List.intercalate sep (b :: l) := by
  simp [List.intercalate, List.intersperse, List.append_assoc]

theorem intercalate_append_single (sep : List Char) (l : List (List Char))
    (s : List Char) (hl : l ≠ []) :
    List.intercalate sep (l ++ [s]) = List.intercalate sep l ++ sep ++ s := by
  induction l with
  | nil => contradiction
  | cons a t ih =>
      cases t with
      | nil => simp [List.intercalate, List.intersperse]
      | cons b u =>
          have h2 := ih (by simp)
          simp only [List.cons_append] at h2 ⊢
          rw [intercalate_cons_cons_eq, h2, intercalate_cons_cons_eq]
          simp [List.append_assoc]

theorem count_intercalate_snoc {Tok : Type} {enc : Encoding Tok}
    (hadd : EncAdditive enc) (sep : List Char) (l : List (List Char))
    (s : List Char) (hl : l ≠ []) :
    countTokens enc (List.intercalate sep (l ++ [s]))
      = countTokens enc (List.intercalate sep l) + countTokens enc sep
        + countTokens enc s := by
  rw [intercalate_append_single sep l s hl, countTokens_append hadd,
    countTokens_append hadd]

theorem getOverlapText_le {Tok : Type} {enc : Encoding Tok} (hadd : EncAdditive enc)
    (hrt : EncRoundTrip enc) (cfg : Splitter) (chunks : List (List Char))
    (sep : List Char) :
    countTokens enc (getOverlapText enc cfg chunks sep) ≤ cfg.chunk_overlap := by
  unfold getOverlapText
  by_cases h : chunks = [] ∨ cfg.chunk_overlap = 0
  · rw [if_pos h, countTokens_nil hadd]
    omega
  · rw [if_neg h]
    simp only [countTokens]
    rw [hrt, List.length_drop]
    omega

theorem splitByTokensGo_bound {Tok : Type} {enc : Encoding Tok}
    (hrt : EncRoundTrip enc) (cfg : Splitter) :
    ∀ (fuel : Nat) (toks : List Tok) (start : Nat) (out : List (List Char)),
      splitByTokensGo enc cfg fuel toks start = some out →
      ∀ ch ∈ out, countTokens enc ch ≤ cfg.chunk_size := by
  intro fuel
  induction fuel with
  | zero => intro toks start out h; simp [splitByTokensGo] at h
  | succ f ih =>
      intro toks start out h
      simp only [splitByTokensGo] at h
      by_cases hst : start < toks.length
      · rw [if_pos hst] at h
        cases hrec : splitByTokensGo enc cfg f toks
            (if min (start + cfg.chunk_size) toks.length < toks.length
              then min (start + cfg.chunk_size) toks.length - cfg.chunk_overlap
              else min (start + cfg.chunk_size) toks.length) with
        | none => rw [hrec] at h; simp at h
        | some rest =>
            rw [hrec] at h
            have hout : enc.decode ((toks.drop start).take
                (min (start + cfg.chunk_size) toks.length - start)) :: rest = out :=
              Option.some.inj h
            intro ch hch
            rw [← hout] at hch
            rcases List.mem_cons.mp hch with hch | hch
            · rw [hch]
              simp only [countTokens]
              rw [hrt, List.length_take, List.length_drop]
              omega
            · exact ih toks _ rest hrec ch hch
      · rw [if_neg hst] at h
        have : ([] : List (List Char)) = out := Option.some.inj h
        rw [← this] at *
        intro ch hch
        cases hch

theorem intercalate_single (sep a : List Char) :
    List.intercalate sep [a] = a := by
  simp [List.intercalate, List.intersperse]

/-- The largest token count among the nonempty separators. -/
def maxSepTokens {Tok : Type} (enc : Encoding Tok) : Nat :=
  max (max (countTokens enc ['\n', '\n']) (countTokens enc ['\n']))
      (max (countTokens enc ['.', ' ']) (countTokens enc [' ']))

/-- Invariant carried by the embedded recursion: the separator in play
is one of the splitter's separators, and the merge accumulator tracks
the token count of the joined current chunk, which stays within
chunk_size + chunk_overlap + the separator count. -/
def CallOK {Tok : Type} (enc : Encoding Tok) (cfg : Splitter) : ChunkCall → Prop
  | .splitText _ => True
  | .sepLoop _ seps => ∀ sep ∈ seps, countTokens enc sep ≤ maxSepTokens enc
  | .mergeSplits sep _ current curTok =>
      countTokens enc sep ≤ maxSepTokens enc
      ∧ curTok = countTokens enc (List.intercalate sep current)
      ∧ countTokens enc (List.intercalate sep current)
          ≤ cfg.chunk_size + cfg.chunk_overlap + maxSepTokens enc

theorem chunkRun_bound {Tok : Type} (enc : Encoding Tok) (cfg : Splitter)
    (hadd : EncAdditive enc) (hrt : EncRoundTrip enc) :
    ∀ (fuel : Nat) (call : ChunkCall) (chunks : List (List Char)),
      CallOK enc cfg call →
      chunkRun enc cfg fuel call = .ok chunks →
      ∀ ch ∈ chunks, countTokens enc ch
        ≤ cfg.chunk_size + cfg.chunk_overlap + maxSepTokens enc := by
  intro fuel
  induction fuel with
  | zero => intro call chunks _ h; simp [chunkRun] at h
  | succ f ih =>
      intro call chunks hok h
      cases call with
      | splitText text =>
          simp only [chunkRun] at h
          by_cases he : text = []
          · rw [if_pos he] at h
            injection h with h2
            intro ch hch
            rw [← h2] at hch
            cases hch
          · rw [if_neg he] at h
            by_cases hcnt : countTokens enc text ≤ cfg.chunk_size
            · rw [if_pos hcnt] at h
              injection h with h2
              intro ch hch
              rw [← h2, List.mem_singleton] at hch
              rw [hch]
              omega
            · rw [if_neg hcnt] at h
              refine ih _ chunks ?_ h
              intro sep hsep
              simp only [separators, List.mem_cons, List.not_mem_nil, or_false] at hsep
              rcases hsep with rfl | rfl | rfl | rfl | rfl
              · simp only [maxSepTokens]; omega
              · simp only [maxSepTokens]; omega
              · simp only [maxSepTokens]; omega
              · simp only [maxSepTokens]; omega
              · rw [countTokens_nil hadd]; omega
      | sepLoop text seps =>
          cases seps with
          | nil =>
              simp only [chunkRun] at h
              cases hsbt : split_by_tokens enc cfg (f + 1) text with
              | none => rw [hsbt] at h; simp at h
              | some w =>
                  rw [hsbt] at h
                  simp only at h
                  injection h with h2
                  intro ch hch
                  rw [← h2] at hch
                  rw [split_by_tokens] at hsbt
                  have := splitByTokensGo_bound hrt cfg (f + 1) (enc.encode text) 0 w hsbt ch hch
                  omega
          | cons sep more =>
              simp only [chunkRun] at h
              have hsepov : countTokens enc sep ≤ maxSepTokens enc :=
                hok sep (List.mem_cons_self sep more)
              have hmore : ∀ s ∈ more, countTokens enc s ≤ maxSepTokens enc :=
                fun s hs => hok s (List.mem_cons_of_mem sep hs)
              by_cases hct : pyContains sep text = true
              · rw [if_pos hct] at h
                cases hsp : pySplit sep text with
                | error e => rw [hsp] at h; simp at h
                | ok splits =>
                    rw [hsp] at h
                    simp only at h
                    cases hm : chunkRun enc cfg f (.mergeSplits sep splits [] 0) with
                    | error e => rw [hm] at h; simp at h
                    | ok mchunks =>
                        rw [hm] at h
                        simp only at h
                        by_cases hmc : mchunks = []
                        · rw [if_pos hmc] at h
                          exact ih (.sepLoop text more) chunks hmore h
                        · rw [if_neg hmc] at h
                          injection h with h2
                          refine fun ch hch => ih _ mchunks ?_ hm ch (h2 ▸ hch)
                          refine ⟨hsepov, ?_, ?_⟩
                          · rw [show List.intercalate sep ([] : List (List Char)) = []
                              from rfl, countTokens_nil hadd]
                          · rw [show List.intercalate sep ([] : List (List Char)) = []
                              from rfl, countTokens_nil hadd]
                            omega
              · rw [if_neg hct] at h
                exact ih (.sepLoop text more) chunks hmore h
      | mergeSplits sep splits current curTok =>
          obtain ⟨hsepok, hcur, hbnd⟩ := hok
          cases splits with
          | nil =>
              simp only [chunkRun] at h
              injection h with h2
              intro ch hch
              rw [← h2] at hch
              by_cases hc0 : current = []
              · rw [if_pos hc0] at hch; cases hch
              · rw [if_neg hc0, List.mem_singleton] at hch
                rw [hch]; exact hbnd
          | cons s rest =>
              simp only [chunkRun] at h
              by_cases hs0 : s = []
              · rw [if_pos hs0] at h
                exact ih (.mergeSplits sep rest current curTok) chunks
                  ⟨hsepok, hcur, hbnd⟩ h
              · rw [if_neg hs0] at h
                by_cases hbig : cfg.chunk_size < countTokens enc s
                · rw [if_pos hbig] at h
                  cases hsub : chunkRun enc cfg f (.splitText s) with
                  | error e => rw [hsub] at h; simp at h
                  | ok sub =>
                      rw [hsub] at h
                      simp only at h
                      cases hm2 : chunkRun enc cfg f (.mergeSplits sep rest [] 0) with
                      | error e => rw [hm2] at h; simp at h
                      | ok more2 =>
                          rw [hm2] at h
                          simp only at h
                          injection h with h2
                          intro ch hch
                          rw [← h2] at hch
                          rcases List.mem_append.mp hch with hch | hch
                          · rcases List.mem_append.mp hch with hch | hch
                            · by_cases hc0 : current = []
                              · rw [if_pos hc0] at hch; cases hch
                              · rw [if_neg hc0, List.mem_singleton] at hch
                                rw [hch]; exact hbnd
                            · exact ih (.splitText s) sub trivial hsub ch hch
                          · refine ih (.mergeSplits sep rest [] 0) more2
                              ⟨hsepok, ?_, ?_⟩ hm2 ch hch
                            · rw [show List.intercalate sep ([] : List (List Char)) = []
                                from rfl, countTokens_nil hadd]
                            · rw [show List.intercalate sep ([] : List (List Char)) = []
                                from rfl, countTokens_nil hadd]
                              omega
                · rw [if_neg hbig] at h
                  by_cases hfit : curTok + countTokens enc s
                      + (if sep ≠ [] ∧ current ≠ [] then countTokens enc sep else 0)
                      ≤ cfg.chunk_size
                  · rw [if_pos hfit] at h
                    have hA : curTok + countTokens enc s
                        + (if sep ≠ [] ∧ current ≠ [] then countTokens enc sep else 0)
                        = countTokens enc (List.intercalate sep (current ++ [s])) := by
                      by_cases hc0 : current = []
                      · subst hc0
                        rw [if_neg (by simp), List.nil_append, intercalate_single]
                        rw [show List.intercalate sep ([] : List (List Char)) = []
                          from rfl, countTokens_nil hadd] at hcur
                        omega
                      · rw [count_intercalate_snoc hadd sep current s hc0, ← hcur]
                        by_cases hsep0 : sep = []
                        · subst hsep0
                          rw [if_neg (by simp), countTokens_nil hadd]
                          omega
                        · rw [if_pos ⟨hsep0, hc0⟩]
                          omega
                    refine ih (.mergeSplits sep rest (current ++ [s]) _) chunks
                      ⟨hsepok, hA, ?_⟩ h
                    rw [← hA]
                    omega
                  · rw [if_neg hfit] at h
                    set ov := getOverlapText enc cfg current sep with hov
                    cases hm2 : chunkRun enc cfg f (.mergeSplits sep rest
                        (if ov = [] then [s] else [ov, s])
                        (countTokens enc (List.intercalate sep
                          (if ov = [] then [s] else [ov, s])))) with
                    | error e => rw [hm2] at h; simp at h
                    | ok more2 =>
                        rw [hm2] at h
                        simp only at h
                        injection h with h2
                        intro ch hch
                        rw [← h2] at hch
                        rcases List.mem_append.mp hch with hch | hch
                        · by_cases hc0 : current = []
                          · rw [if_pos hc0] at hch; cases hch
                          · rw [if_neg hc0, List.mem_singleton] at hch
                            rw [hch]; exact hbnd
                        · refine ih (.mergeSplits sep rest
                              (if ov = [] then [s] else [ov, s]) _) more2
                              ⟨hsepok, rfl, ?_⟩ hm2 ch hch
                          have hovle : countTokens enc ov ≤ cfg.chunk_overlap := by
                            rw [hov]
                            exact getOverlapText_le hadd hrt cfg current sep
                          by_cases hove : ov = []
                          · rw [if_pos hove, intercalate_single]
                            omega
                          · rw [if_neg hove, intercalate_pair,
                              countTokens_append hadd, countTokens_append hadd]
                            omega

/-- C4 (amended): under 0 <= overlap < chunk_size, for an additive
round-tripping encoding, every chunk produced by split_text (none of
which can come from the unreachable hard-split fallback, see C1) has at
most chunk_size + chunk_overlap + maxSepTokens tokens: the overlap text
seeded into a fresh chunk comes on top of the chunk budget rather than
inside it.  The claim as stated, with the bound chunk_size alone, fails;
see the counterexample. -/
theorem c4_chunk_budget_with_overlap_slack :
    ∀ {Tok : Type} (enc : Encoding Tok) (cfg : Splitter) (text : List Char)
      (chunks : List (List Char)),
      EncAdditive enc → EncRoundTrip enc →
      cfg.chunk_overlap < cfg.chunk_size →
      split_text enc cfg text = .ok chunks →
      ∀ ch ∈ chunks, countTokens enc ch
        ≤ cfg.chunk_size + cfg.chunk_overlap + maxSepTokens enc := by
  intro Tok enc cfg text chunks hadd hrt _ h
  exact chunkRun_bound enc cfg hadd hrt _ (.splitText text) chunks trivial h

/-- Counterexample for C4 as stated: with chunk_size 10 and overlap 3,
the text "abcdefgh ijklmnopq rstuvwxyz" (one token per character) is
split on spaces and merged into three chunks; the second and third are
seeded with 3 tokens of overlap text and reach 13 tokens, exceeding the
claimed chunk_size budget although they come from the merge path, not
from the hard-split fallback. -/
theorem c4_counterexample :
    split_text charEnc (Splitter.mk 10 3) "abcdefgh ijklmnopq rstuvwxyz".toList
      = .ok ["abcdefgh".toList, "fgh ijklmnopq".toList, "opq rstuvwxyz".toList]
    ∧ countTokens charEnc "fgh ijklmnopq".toList = 13
    ∧ ¬ countTokens charEnc "fgh ijklmnopq".toList ≤ (Splitter.mk 10 3).chunk_size :=
  ⟨rfl, rfl, by decide⟩

/-- Witness for C4 (amended): the oversized 13-token chunk of the
counterexample does satisfy the amended budget 10 + 3 + 2. -/
theorem c4_witness :
    countTokens charEnc "fgh ijklmnopq".toList
      ≤ (Splitter.mk 10 3).chunk_size + (Splitter.mk 10 3).chunk_overlap
        + maxSepTokens charEnc :=
  c4_chunk_budget_with_overlap_slack charEnc (Splitter.mk 10 3)
    "abcdefgh ijklmnopq rstuvwxyz".toList
    ["abcdefgh".toList, "fgh ijklmnopq".toList, "opq rstuvwxyz".toList]
    (fun _ _ => rfl) (fun _ => rfl) (by decide) rfl
    "fgh ijklmnopq".toList (by decide)
